import Mathlib

/-!
# Verification of the string-wizard similarity library

Shallow embedding of `src/index.js`: the generic string-similarity scorer
(`compareStrings`), the diacritic stripper (`stripDiacritics`), the name
sanitizer (`sanitizeName`), the structural bonus (`structuralBonus`) and the
name comparator (`compareNames`).

Modelling conventions:
* JS strings are `List Char`; absent / null arguments are `Option (List Char)`
  with `none` for null (JS `!s` is true exactly for null-like and empty
  strings, so the empty-string test is kept separate).
* JS numbers are modelled as `ℚ`.  The one place where the source can produce
  `NaN` (the unguarded division `1 - lev / Math.max(a.length, b.length)` when
  both normalized strings are empty) is modelled by an `Option ℚ` result whose
  `none` stands for `NaN`; `NaN` propagates through the blend, `Math.min` and
  `Math.max` in the source exactly as `none` propagates here.
* `String.prototype.toLowerCase` and Unicode NFKD/NFD decomposition are
  modelled by tables restricted to the code points this development exercises;
  every other character is fixed.
-/

namespace StringWizard

/-- The JS whitespace class (`\s`, also the set trimmed by `String.trim`):
space, tab, LF, VT, FF, CR, NBSP, and the Unicode space separators. -/
def isWS (c : Char) : Bool :=
  c.toNat == 32 || (9 ≤ c.toNat && c.toNat ≤ 13) || c.toNat == 0xA0 ||
  c.toNat == 0x1680 || (0x2000 ≤ c.toNat && c.toNat ≤ 0x200A) ||
  c.toNat == 0x2028 || c.toNat == 0x2029 || c.toNat == 0x202F ||
  c.toNat == 0x205F || c.toNat == 0x3000 || c.toNat == 0xFEFF

/-- The JS word-character class `\w` = `[A-Za-z0-9_]` (ASCII only, as in the
source regex `/\W+/` without the unicode flag). -/
def isWordChar (c : Char) : Bool :=
  (97 ≤ c.toNat && c.toNat ≤ 122) || (65 ≤ c.toNat && c.toNat ≤ 90) ||
  (48 ≤ c.toNat && c.toNat ≤ 57) || c == '_'

/-- The punctuation class replaced by spaces in `sanitizeName`:
the source regex `/[_.,/\\'’"-]+/g` (39 is the ASCII apostrophe). -/
def isPunct (c : Char) : Bool :=
  c == '_' || c == '.' || c == ',' || c == '/' || c == '\\' ||
  c.toNat == 39 || c == '’' || c == '"' || c == '-'

/-- `String.prototype.toLowerCase`, restricted to ASCII letters (the only code
points whose lowercasing this development exercises); all other characters are
fixed. -/
def toLowerJS (c : Char) : Char :=
  match c with
  | 'A' => 'a' | 'B' => 'b' | 'C' => 'c' | 'D' => 'd' | 'E' => 'e' | 'F' => 'f'
  | 'G' => 'g' | 'H' => 'h' | 'I' => 'i' | 'J' => 'j' | 'K' => 'k' | 'L' => 'l'
  | 'M' => 'm' | 'N' => 'n' | 'O' => 'o' | 'P' => 'p' | 'Q' => 'q' | 'R' => 'r'
  | 'S' => 's' | 'T' => 't' | 'U' => 'u' | 'V' => 'v' | 'W' => 'w' | 'X' => 'x'
  | 'Y' => 'y' | 'Z' => 'z'
  | c => c

/-- `Math.min` on two numbers (kernel-reducible form; equal to `min`). -/
def minQ (a b : ℚ) : ℚ := if a ≤ b then a else b

/-- `Math.max` on two numbers (kernel-reducible form; equal to `max`). -/
def maxQ (a b : ℚ) : ℚ := if a ≤ b then b else a

/-- `String.trim` (drop leading and trailing whitespace). -/
def trimWS (l : List Char) : List Char :=
  ((l.dropWhile isWS).reverse.dropWhile isWS).reverse

/-- `.replace(/\s+/g, ' ')`: every maximal run of whitespace becomes one
space. -/
def collapseWS : List Char → List Char
  | [] => []
  | [c] => if isWS c then [' '] else [c]
  | c1 :: c2 :: cs =>
    if isWS c1 && isWS c2 then collapseWS (c2 :: cs)
    else (if isWS c1 then ' ' else c1) :: collapseWS (c2 :: cs)

/-! ## compareStrings (src/index.js lines 21-79) -/

/-- `a.toLowerCase().trim()` — the normalization at the top of
`compareStrings`. -/
def normalizeStr (l : List Char) : List Char := trimWS (l.map toLowerJS)

/-- One row of the Levenshtein DP table past column 0: walking `s1` (cells
`i = 1 ..`), carrying the diagonal `dp[j-1][i-1]`, the left neighbour
`dp[j][i-1]`, and the rest of the previous row from `dp[j-1][i]` on.  Each
cell is `min(dp[j-1][i] + 1, dp[j][i-1] + 1, dp[j-1][i-1] + cost)` as in the
source. -/
def levCells : Nat → Nat → List Nat → List Char → Char → List Nat
  | _, _, _, [], _ => []
  | _, _, [], _ :: _, _ => []
  | diag, left, p :: ps, c1 :: cs, c2 =>
    let v := min (p + 1) (min (left + 1) (diag + (if c1 = c2 then 0 else 1)))
    v :: levCells p v ps cs c2

/-- Row `j` of the DP table: `dp[j][0] = j`, then the cells over `s1`. -/
def levRow (prev : List Nat) (j : Nat) (s1 : List Char) (c2 : Char) : List Nat :=
  j :: levCells (prev.headD 0) j prev.tail s1 c2

/-- Fill the DP rows `j = 1 .. s2.length`, one per character of `s2`. -/
def dpLevAux (s1 : List Char) : List Char → List Nat → Nat → List Nat
  | [], prev, _ => prev
  | c2 :: rest, prev, j => dpLevAux s1 rest (levRow prev j s1 c2) (j + 1)

/-- The inner `levenshtein` of the source: row 0 is `0 .. s1.length`
(`dp[0][i] = i`), rows are filled for each character of `s2`, and the result
is `dp[s2.length][s1.length]` — the last entry of the final row. -/
def dpLev (s1 s2 : List Char) : Nat :=
  (dpLevAux s1 s2 (List.range (s1.length + 1)) 1).getLastD 0

/-- `levScore = 1 - lev / Math.max(a.length, b.length)` (the unguarded
division; its `NaN` case is handled by the caller `compareStringsO`). -/
def levScoreQ (a b : List Char) : ℚ :=
  1 - (dpLev a b : ℚ) / ((max a.length b.length : ℕ) : ℚ)

/-- `str.split(/\W+/).filter(Boolean)`: splitting on each non-word character
and dropping empty pieces is the same as splitting on runs. -/
def tokenizeW (l : List Char) : List (List Char) :=
  (l.splitOnP (fun c => !isWordChar c)).filter (fun t => !t.isEmpty)

/-- The token-Jaccard sub-score: `|A ∩ B| / |A ∪ B|`, `0` when the union is
empty (`union ? inter / union : 0`). -/
def jaccardQ (a b : List Char) : ℚ :=
  let A := (tokenizeW a).toFinset
  let B := (tokenizeW b).toFinset
  let inter := (A ∩ B).card
  let uni := (A ∪ B).card
  if uni = 0 then 0 else (inter : ℚ) / (uni : ℚ)

/-- Cell `m[i][j]` of the longest-common-substring table:
`s1[i] === s2[j] ? (i && j ? m[i-1][j-1] : 0) + 1 : 0`. -/
def lcsCell (s1 s2 : List Char) : Nat → Nat → Nat
  | 0, j => if s1.getD 0 'a' = s2.getD j 'a' then 1 else 0
  | i + 1, 0 => if s1.getD (i + 1) 'a' = s2.getD 0 'a' then 1 else 0
  | i + 1, j + 1 =>
    if s1.getD (i + 1) 'a' = s2.getD (j + 1) 'a' then lcsCell s1 s2 i j + 1 else 0

/-- All cells of the LCS table, in the iteration order of the source. -/
def lcsGrid (s1 s2 : List Char) : List Nat :=
  (List.range s1.length).flatMap fun i =>
    (List.range s2.length).map fun j => lcsCell s1 s2 i j

/-- The running maximum `longest` over the table (initially `0`). -/
def lcsLongest (s1 s2 : List Char) : Nat := (lcsGrid s1 s2).foldr max 0

/-- The common-substring sub-score:
`Math.max(s1.length, s2.length) ? longest / Math.max(..) : 0`. -/
def lcsScoreQ (s1 s2 : List Char) : ℚ :=
  if max s1.length s2.length = 0 then 0
  else (lcsLongest s1 s2 : ℚ) / ((max s1.length s2.length : ℕ) : ℚ)

/-- `compareStrings`.  `none` inputs are null-like (`!a` short-circuit, with
the empty-string case tested separately); the result `none` models the `NaN`
produced by the source when both normalized strings are empty: there
`1 - 0/0 = NaN` and `NaN` survives `levScore * 0.5 + ... `, `Math.min` and
`Math.max`. -/
def compareStringsO (a b : Option (List Char)) : Option ℚ :=
  match a, b with
  | some la, some lb =>
    if la.isEmpty || lb.isEmpty then some 0
    else
      let a1 := normalizeStr la
      let b1 := normalizeStr lb
      if max a1.length b1.length = 0 then none
      else
        some (maxQ 0 (minQ 1
          (levScoreQ a1 b1 * (1/2) + jaccardQ a1 b1 * (3/10) +
            lcsScoreQ a1 b1 * (1/5))))
  | _, _ => some 0

/-! ## stripDiacritics (src/index.js line 97) -/

/-- Unicode NFKD (compatibility) decomposition, restricted to the code points
this development exercises; every other character decomposes to itself.
Note `'²'` (U+00B2) is a compatibility character: NFKD maps it to `'2'`. -/
def nfkdChar (c : Char) : List Char :=
  match c with
  | 'á' => ['a', Char.ofNat 0x301]
  | 'é' => ['e', Char.ofNat 0x301]
  | 'í' => ['i', Char.ofNat 0x301]
  | 'ó' => ['o', Char.ofNat 0x301]
  | 'ú' => ['u', Char.ofNat 0x301]
  | 'ü' => ['u', Char.ofNat 0x308]
  | 'ï' => ['i', Char.ofNat 0x308]
  | 'ã' => ['a', Char.ofNat 0x303]
  | 'ç' => ['c', Char.ofNat 0x327]
  | '²' => ['2']
  | c => [c]

/-- Unicode NFD (canonical) decomposition, restricted to the same code
points.  It agrees with NFKD on the precomposed letters, but leaves the
compatibility character `'²'` alone. -/
def nfdChar (c : Char) : List Char :=
  match c with
  | 'á' => ['a', Char.ofNat 0x301]
  | 'é' => ['e', Char.ofNat 0x301]
  | 'í' => ['i', Char.ofNat 0x301]
  | 'ó' => ['o', Char.ofNat 0x301]
  | 'ú' => ['u', Char.ofNat 0x301]
  | 'ü' => ['u', Char.ofNat 0x308]
  | 'ï' => ['i', Char.ofNat 0x308]
  | 'ã' => ['a', Char.ofNat 0x303]
  | 'ç' => ['c', Char.ofNat 0x327]
  | c => [c]

/-- Membership in the combining-diacritical-marks block U+0300–U+036F. -/
def isCombining (c : Char) : Bool := 0x300 ≤ c.toNat && c.toNat ≤ 0x36F

/-- `stripDiacritics`: `s.normalize('NFKD').replace(/[̀-ͯ]/g, '')`. -/
def stripDiacritics (l : List Char) : List Char :=
  (l.flatMap nfkdChar).filter fun c => !isCombining c

/-- Modelled from the spec: the variant of `stripDiacritics` the spec
describes, using canonical (NFD) decomposition instead of the source's
NFKD. -/
def stripDiacriticsNFD (l : List Char) : List Char :=
  (l.flatMap nfdChar).filter fun c => !isCombining c

/-! ## sanitizeName (src/index.js lines 115-174) -/

/-- The honorific lookup set. -/
def HONORIFICS : List (List Char) :=
  ["mr", "mrs", "ms", "miss", "mx", "dr", "prof", "sir", "dame"].map String.toList

/-- The suffix lookup set. -/
def SUFFIXES : List (List Char) :=
  ["jr", "sr", "ii", "iii", "iv", "v", "md", "phd", "esq"].map String.toList

/-- `.replace(/[_.,/\\'’"-]+/g, ' ')`: replacing each punctuation character by
a space; runs then collapse in the immediately following `.replace(/\s+/g,' ')`,
so per-character replacement is observationally identical to the run
replacement of the source. -/
def replacePunct (l : List Char) : List Char :=
  l.map fun c => if isPunct c then ' ' else c

/-- `x.split(' ').filter(Boolean)`: split on each single space, drop empty
pieces. -/
def spaceTokens (l : List Char) : List (List Char) :=
  (l.splitOn ' ').filter fun t => !t.isEmpty

/-- `t.replace(/\.+$/, '')`: strip trailing dots from a token. -/
def stripDots (t : List Char) : List Char :=
  (t.reverse.dropWhile fun c => c == '.').reverse

/-- The honorific-stripping loop:
`while (tokens.length && HONORIFICS.has(tokens[0])) tokens.shift()`. -/
def dropHon (ts : List (List Char)) : List (List Char) :=
  ts.dropWhile fun t => HONORIFICS.contains t

/-- The suffix-stripping loop:
`while (tokens.length && SUFFIXES.has(last.replace(/\.+$/,''))) tokens.pop()`. -/
def dropSuf (ts : List (List Char)) : List (List Char) :=
  (ts.reverse.dropWhile fun t => SUFFIXES.contains (stripDots t)).reverse

/-- `/^[a-z]$/.test(t)`: a token that is exactly one lowercase ASCII
letter. -/
def isSingleL (t : List Char) : Bool :=
  match t with
  | [c] => 97 ≤ c.toNat && c.toNat ≤ 122
  | _ => false

/-- The single-letter collapsing loop, with its pending `buffer`. -/
def csAux : List (List Char) → List Char → List (List Char)
  | [], buf => if buf.isEmpty then [] else [buf]
  | t :: ts, buf =>
    if isSingleL t then csAux ts (buf ++ t)
    else if buf.isEmpty then t :: csAux ts [] else buf :: t :: csAux ts []

/-- The collapsing loop started with an empty buffer. -/
def collapseSingles (ts : List (List Char)) : List (List Char) := csAux ts []

/-- `collapsed.join(' ')`. -/
def joinSp : List (List Char) → List Char
  | [] => []
  | [t] => t
  | t :: t2 :: ts => t ++ ' ' :: joinSp (t2 :: ts)

/-- The tokens of `sanitizeName` before stripping: diacritic removal,
lowercasing, punctuation folding, whitespace normalization, split. -/
def sanTokens0 (l : List Char) : List (List Char) :=
  spaceTokens (trimWS (collapseWS (replacePunct ((stripDiacritics l).map toLowerJS))))

/-- The token list after the honorific and suffix stripping loops (and before
single-letter collapsing). -/
def strippedTokens (l : List Char) : List (List Char) :=
  dropSuf (dropHon (sanTokens0 l))

/-- `sanitizeName`: `none` models null-like input (`!s` also catches the
empty string). -/
def sanitizeName (s : Option (List Char)) : List Char :=
  match s with
  | none => []
  | some l =>
    if l.isEmpty then []
    else trimWS (collapseWS (joinSp (collapseSingles (strippedTokens l))))

/-- The stripped token list reached by `sanitizeName` on input `s` right
before single-letter collapsing (empty for null-like input). -/
def sanTokensOf (s : Option (List Char)) : List (List Char) :=
  match s with
  | none => []
  | some l => if l.isEmpty then [] else strippedTokens l

/-! ## structuralBonus (src/index.js lines 191-206) -/

/-- `structuralBonus`: split both sanitized strings on spaces, `0` if either
list is empty, else `0.05` for equal last tokens plus `0.02` for equal first
initials (the truthiness guards of the source are kept verbatim). -/
def structuralBonusQ (aSan bSan : List Char) : ℚ :=
  let aT := spaceTokens aSan
  let bT := spaceTokens bSan
  if aT.isEmpty || bT.isEmpty then 0
  else
    let aLast := aT.getLastD []
    let bLast := bT.getLastD []
    let lastMatch : ℚ :=
      if !aLast.isEmpty && !bLast.isEmpty && aLast == bLast then 1/20 else 0
    let aFirst := aT.headD []
    let bFirst := bT.headD []
    let firstInitialMatch : ℚ :=
      if !aFirst.isEmpty && !bFirst.isEmpty && aFirst.headD 'a' == bFirst.headD 'a'
      then 1/50 else 0
    lastMatch + firstInitialMatch

/-! ## compareNames (src/index.js lines 226-249) -/

/-- The unused `joinSingles` hook of the source:
`s.split(' ').map(t => (t.length === 1 ? t : t)).join(' ')`. -/
def joinSingles (s : List Char) : List Char :=
  joinSp ((s.splitOn ' ').map fun t => if t.length = 1 then t else t)

/-- `compareNames`: sanitize both names, then run the variant loop (each
variant list is the one-element `[aSan]` / `[bSan]`), keeping the running
maximum `best = Math.max(best, Math.min(1, base + bonus))` starting from `0`.
A `NaN` base (`none`) would propagate through `Math.min`/`Math.max`, hence
through the fold. -/
def compareNamesO (a b : Option (List Char)) : Option ℚ :=
  let aSan := sanitizeName a
  let bSan := sanitizeName b
  let variantsA := [aSan]
  let variantsB := [bSan]
  variantsA.foldl
    (fun best va =>
      variantsB.foldl
        (fun best vb =>
          match best, compareStringsO (some va) (some vb) with
          | some bst, some base =>
            some (maxQ bst (minQ 1 (base + structuralBonusQ va vb)))
          | _, _ => none)
        best)
    (some 0)

/-- Modelled from the spec (§4.5): the direct single-pass computation
`min(1, base + bonus)` with `base = StringSimilarity(sanitizedA, sanitizedB)`
and `bonus = StructuralBonus(sanitizedA, sanitizedB)`. -/
def compareNamesDirect (a b : Option (List Char)) : Option ℚ :=
  let aSan := sanitizeName a
  let bSan := sanitizeName b
  (compareStringsO (some aSan) (some bSan)).map fun base =>
    minQ 1 (base + structuralBonusQ aSan bSan)

/-- The reference Levenshtein distance: Mathlib's `levenshtein` with unit
costs for insertion, deletion and substitution. -/
def levRef (a b : List Char) : ℕ := levenshtein Levenshtein.defaultCost a b

/-! ## Theorems -/

/-- Evaluation shape of `compareStringsO` on non-empty inputs whose
normalizations are not both empty. -/
lemma compareStringsO_some_eq (la lb : List Char) (h1 : la.isEmpty = false)
    (h2 : lb.isEmpty = false)
    (h3 : ¬ max (normalizeStr la).length (normalizeStr lb).length = 0) :
    compareStringsO (some la) (some lb) =
      some (maxQ 0 (minQ 1
        (levScoreQ (normalizeStr la) (normalizeStr lb) * (1/2) +
          jaccardQ (normalizeStr la) (normalizeStr lb) * (3/10) +
          lcsScoreQ (normalizeStr la) (normalizeStr lb) * (1/5)))) := by
  simp [compareStringsO, h1, h2, h3]

/-- C1: the claim that `compareStrings` always returns a value in `[0, 1]`
fails on the code: for the whitespace-only inputs `" "` and `" "` (truthy, so
past the short-circuit, but empty after trimming) the source computes
`1 - 0/0 = NaN`, which propagates through the blend and the clamp; the
division is not guarded.  `none` is the model of that `NaN` result. -/
theorem compareStrings_nan_on_whitespace :
    compareStringsO (some [' ']) (some [' ']) = none := by decide

/-- C9: whenever either argument of `compareStrings` is absent, null, or the
empty string, the result is exactly `0` (the defined short-circuit), with no
distance, token, or substring computation reached. -/
theorem compareStrings_empty_short_circuit (a b : Option (List Char))
    (h : a = none ∨ a = some [] ∨ b = none ∨ b = some []) :
    compareStringsO a b = some 0 := by
  rcases h with h | h | h | h <;> subst h <;>
    first
    | (cases b <;> simp [compareStringsO])
    | (cases a <;> simp [compareStringsO])

/-- Witness for C9 at a concrete input: a null first argument yields `0`. -/
theorem compareStrings_empty_short_circuit_witness :
    compareStringsO none (some ['x']) = some 0 :=
  compareStrings_empty_short_circuit none (some ['x']) (Or.inl rfl)

/-- C2 fails as the claim states it: the single-letter collapsing loop runs
after the honorific strip, so fusing `"m"` and `"r"` creates the leading
token `"mr"`, which is in the honorific set.  Concretely,
`sanitizeName("m r smith") = "mr smith"`. -/
theorem sanitizeName_honorific_counterexample :
    (spaceTokens (sanitizeName (some "m r smith".toList))).take 1 =
      ["mr".toList] ∧ "mr".toList ∈ HONORIFICS := by decide

/-- C3 fails as stated: `"-"` is non-empty before and after normalization,
yet `compareStrings("-", "-") = 0.7`, not `1`: the token sets are empty (no
word characters), so the Jaccard sub-score is `0` and the blend is
`0.5 + 0 + 0.2`. -/
theorem compareStrings_dash_counterexample :
    (['-'] : List Char) ≠ [] ∧ normalizeStr ['-'] ≠ [] ∧
    compareStringsO (some ['-']) (some ['-']) = some (7/10) ∧
    ((7 : ℚ)/10) ≠ 1 := by
  refine ⟨by decide, by decide, ?_, by norm_num⟩
  have hn : normalizeStr ['-'] = ['-'] := by decide
  rw [compareStringsO_some_eq _ _ (by decide) (by decide) (by rw [hn]; decide), hn]
  have hlev : dpLev ['-'] ['-'] = 0 := by decide
  have htok : tokenizeW ['-'] = [] := by decide
  have hlcs : lcsLongest ['-'] ['-'] = 1 := by decide
  rw [levScoreQ, jaccardQ, lcsScoreQ, hlev, htok]
  simp [hlcs, minQ, maxQ]
  norm_num

lemma headD_mem {α : Type} {l : List α} (d : α) (h : l ≠ []) : l.headD d ∈ l := by
  cases l with
  | nil => exact absurd rfl h
  | cons a t => simp

lemma getLastD_mem {α : Type} (l : List α) (d : α) (h : l ≠ []) : l.getLastD d ∈ l := by
  rw [List.getLastD_eq_getLast?, List.getLast?_eq_getLast l h]
  exact List.getLast_mem h

lemma spaceTokens_ne_nil {l t : List Char} (h : t ∈ spaceTokens l) : t ≠ [] := by
  have := List.mem_filter.mp h
  simpa [List.isEmpty_iff] using this.2

/-- C7: `structuralBonus` splits each sanitized string on spaces discarding
empties, returns `0` if either token list is empty, and otherwise sums `0.05`
for character-for-character equal last tokens and `0.02` for equal first
characters of the first tokens; the result always lies in
`{0, 0.02, 0.05, 0.07}`. -/
theorem structuralBonus_values (a b : List Char) :
    (spaceTokens a = [] ∨ spaceTokens b = [] → structuralBonusQ a b = 0) ∧
    (spaceTokens a ≠ [] → spaceTokens b ≠ [] →
      structuralBonusQ a b =
        (if (spaceTokens a).getLastD [] = (spaceTokens b).getLastD []
          then (1:ℚ)/20 else 0) +
        (if ((spaceTokens a).headD []).headD 'a' = ((spaceTokens b).headD []).headD 'a'
          then (1:ℚ)/50 else 0)) ∧
    structuralBonusQ a b ∈ ({0, 1/50, 1/20, 7/100} : Set ℚ) := by
  refine ⟨?_, ?_, ?_⟩
  · intro h
    rcases h with h | h <;> simp [structuralBonusQ, h]
  · intro hA hB
    have hA' : (spaceTokens a).isEmpty = false := by simpa [List.isEmpty_iff] using hA
    have hB' : (spaceTokens b).isEmpty = false := by simpa [List.isEmpty_iff] using hB
    have hAL : ¬ (spaceTokens a).getLast?.getD [] = [] := by
      simpa [List.getLastD_eq_getLast?] using spaceTokens_ne_nil (getLastD_mem _ [] hA)
    have hBL : ¬ (spaceTokens b).getLast?.getD [] = [] := by
      simpa [List.getLastD_eq_getLast?] using spaceTokens_ne_nil (getLastD_mem _ [] hB)
    have hAH : ¬ (spaceTokens a).head?.getD [] = [] := by
      simpa [List.headD_eq_head?] using spaceTokens_ne_nil (headD_mem [] hA)
    have hBH : ¬ (spaceTokens b).head?.getD [] = [] := by
      simpa [List.headD_eq_head?] using spaceTokens_ne_nil (headD_mem [] hB)
    simp only [structuralBonusQ]
    rw [if_neg (by simp [hA', hB'])]
    congr 1
    · apply if_congr _ rfl rfl
      simp [hAL, hBL]
    · apply if_congr _ rfl rfl
      simp [hAH, hBH]
  · simp only [structuralBonusQ, Set.mem_insert_iff, Set.mem_singleton_iff]
    split_ifs <;> norm_num

/-- Witness for C7: both the surname and the first initial of
`"john a smith"` and `"john b smith"` agree, so the bonus is `0.07`. -/
theorem structuralBonus_values_witness :
    structuralBonusQ "john a smith".toList "john b smith".toList = 7/100 := by
  have h := (structuralBonus_values "john a smith".toList "john b smith".toList).2.1
    (by decide) (by decide)
  rw [h, if_pos (by decide), if_pos (by decide)]
  norm_num

/-- C4 fails as stated: the source uses NFKD (compatibility) decomposition,
not canonical decomposition; the letterless string `"²"` does not pass
through unchanged but becomes `"2"`. -/
theorem stripDiacritics_nfkd_counterexample :
    stripDiacritics ['²'] = ['2'] ∧ stripDiacriticsNFD ['²'] = ['²'] ∧
    ¬ ('²'.isAlpha = true) ∧ stripDiacritics ['²'] ≠ ['²'] := by decide

/-! ### The reference Levenshtein distance -/

lemma levRef_nil_left : ∀ t : List Char, levRef [] t = t.length
  | [] => by simp [levRef]
  | y :: ys => by
    have ih := levRef_nil_left ys
    simp [levRef] at ih ⊢
    omega

lemma levRef_nil_right (s : List Char) : levRef s [] = s.length := by
  induction s with
  | nil => simp [levRef]
  | cons a s ih => simp [levRef] at ih ⊢; omega

lemma levRef_cons_cons (a b : Char) (s t : List Char) :
    levRef (a :: s) (b :: t) =
      min (1 + levRef s (b :: t))
        (min (1 + levRef (a :: s) t) ((if a = b then 0 else 1) + levRef s t)) := by
  simp [levRef]

set_option maxHeartbeats 1000000 in
lemma levRef_concat_concat (x y : Char) (s t : List Char) :
    levRef (s ++ [x]) (t ++ [y]) =
      min (levRef s (t ++ [y]) + 1)
        (min (levRef (s ++ [x]) t + 1)
          (levRef s t + (if x = y then 0 else 1))) := by
  induction s generalizing t with
  | nil =>
    induction t with
    | nil =>
      simp only [List.nil_append, levRef_cons_cons, levRef_nil_left, levRef_nil_right,
        List.length_nil, List.length_cons]
      try simp only [← min_add_add_left, ← min_add_add_right]
      refine le_antisymm ?_ ?_ <;> simp only [le_min_iff, min_le_iff] <;> omega
    | cons b' t' iht =>
      simp only [List.nil_append, List.cons_append] at iht ⊢
      rw [levRef_cons_cons]
      rw [iht]
      simp only [levRef_cons_cons, levRef_nil_left, List.length_append, List.length_cons,
        List.length_nil]
      try simp only [← min_add_add_left, ← min_add_add_right]
      refine le_antisymm ?_ ?_ <;> simp only [le_min_iff, min_le_iff] <;> omega
  | cons a' s' ihs =>
    induction t with
    | nil =>
      have h1 := ihs []
      simp only [List.nil_append, List.cons_append] at h1 ⊢
      rw [levRef_cons_cons]
      rw [h1]
      simp only [levRef_cons_cons, levRef_nil_right, List.length_append, List.length_cons,
        List.length_nil]
      try simp only [← min_add_add_left, ← min_add_add_right]
      refine le_antisymm ?_ ?_ <;> simp only [le_min_iff, min_le_iff] <;> omega
    | cons b' t' iht =>
      have h1 := ihs (b' :: t')
      have h2 := ihs t'
      simp only [List.cons_append] at h1 h2 iht ⊢
      rw [levRef_cons_cons]
      rw [h1, iht, h2]
      simp only [levRef_cons_cons]
      try simp only [← min_add_add_left, ← min_add_add_right]
      refine le_antisymm ?_ ?_ <;> simp only [le_min_iff, min_le_iff] <;> omega


lemma levCells_cons (diag left q : Nat) (qs : List Nat) (c1 : Char) (cs : List Char)
    (c2 : Char) :
    levCells diag left (q :: qs) (c1 :: cs) c2 =
      (min (q + 1) (min (left + 1) (diag + (if c1 = c2 then 0 else 1)))) ::
        levCells q (min (q + 1) (min (left + 1) (diag + (if c1 = c2 then 0 else 1)))) qs cs c2 :=
  rfl

lemma levCells_inv (c : Char) (p : List Char) : ∀ (cs pre : List Char),
    levCells (levRef pre p) (levRef pre (p ++ [c]))
        ((List.range cs.length).map fun k => levRef (pre ++ cs.take (k + 1)) p) cs c =
      ((List.range cs.length).map fun k => levRef (pre ++ cs.take (k + 1)) (p ++ [c]))
  | [], pre => by simp [levCells]
  | c1 :: cs', pre => by
    have ih := levCells_inv c p cs' (pre ++ [c1])
    have hsucc : List.range (cs'.length + 1) = 0 :: (List.range cs'.length).map Nat.succ :=
      List.range_succ_eq_map cs'.length
    have hmap1 : List.map ((fun k => levRef (pre ++ (c1 :: cs').take (k + 1)) p) ∘ Nat.succ)
        (List.range cs'.length) =
        List.map (fun k => levRef ((pre ++ [c1]) ++ cs'.take (k + 1)) p)
          (List.range cs'.length) :=
      List.map_congr_left fun k _ => by
        simp [Function.comp, List.take_succ_cons, List.append_assoc]
    have hmap2 : List.map ((fun k => levRef (pre ++ (c1 :: cs').take (k + 1)) (p ++ [c])) ∘ Nat.succ)
        (List.range cs'.length) =
        List.map (fun k => levRef ((pre ++ [c1]) ++ cs'.take (k + 1)) (p ++ [c]))
          (List.range cs'.length) :=
      List.map_congr_left fun k _ => by
        simp [Function.comp, List.take_succ_cons, List.append_assoc]
    have htake0 : pre ++ (c1 :: cs').take (0 + 1) = pre ++ [c1] := by simp
    have hv : min (levRef (pre ++ [c1]) p + 1)
        (min (levRef pre (p ++ [c]) + 1)
          (levRef pre p + (if c1 = c then 0 else 1))) =
        levRef (pre ++ [c1]) (p ++ [c]) := by
      rw [levRef_concat_concat c1 c pre p]
      try simp only [← min_add_add_left, ← min_add_add_right]
      refine le_antisymm ?_ ?_ <;> simp only [le_min_iff, min_le_iff] <;> omega
    rw [List.length_cons, hsucc, List.map_cons, List.map_cons, List.map_map, List.map_map,
      hmap1, hmap2, htake0, levCells_cons, hv]
    rw [ih]

lemma levRow_inv (s1 p : List Char) (c : Char) :
    levRow ((List.range (s1.length + 1)).map fun i => levRef (s1.take i) p)
        (p.length + 1) s1 c =
      ((List.range (s1.length + 1)).map fun i => levRef (s1.take i) (p ++ [c])) := by
  have h := levCells_inv c p s1 []
  simp only [List.nil_append] at h
  have hsucc : List.range (s1.length + 1) = 0 :: (List.range s1.length).map Nat.succ :=
    List.range_succ_eq_map s1.length
  have hmap1 : List.map ((fun i => levRef (s1.take i) p) ∘ Nat.succ) (List.range s1.length) =
      List.map (fun k => levRef (s1.take (k + 1)) p) (List.range s1.length) :=
    List.map_congr_left fun k _ => by simp [Function.comp]
  have hmap2 : List.map ((fun i => levRef (s1.take i) (p ++ [c])) ∘ Nat.succ)
      (List.range s1.length) =
      List.map (fun k => levRef (s1.take (k + 1)) (p ++ [c])) (List.range s1.length) :=
    List.map_congr_left fun k _ => by simp [Function.comp]
  rw [levRow, hsucc, List.map_cons, List.map_cons, List.map_map, List.map_map, hmap1, hmap2]
  simp only [List.take_zero, List.headD_cons, List.tail_cons]
  have hhead : p.length + 1 = levRef ([] : List Char) (p ++ [c]) := by
    rw [levRef_nil_left]
    simp
  rw [← hhead] at h
  rw [h, hhead]

lemma dpLevAux_inv (s1 : List Char) : ∀ (rest p : List Char),
    dpLevAux s1 rest ((List.range (s1.length + 1)).map fun i => levRef (s1.take i) p)
        (p.length + 1) =
      ((List.range (s1.length + 1)).map fun i => levRef (s1.take i) (p ++ rest))
  | [], p => by simp [dpLevAux]
  | c :: rest', p => by
    have hrow := levRow_inv s1 p c
    have ih := dpLevAux_inv s1 rest' (p ++ [c])
    rw [dpLevAux, hrow]
    have hlen : p.length + 1 + 1 = (p ++ [c]).length + 1 := by simp
    rw [hlen, ih]
    apply List.map_congr_left
    intro i _
    rw [List.append_assoc]
    rfl

lemma dpLev_eq_levRef (s1 s2 : List Char) : dpLev s1 s2 = levRef s1 s2 := by
  have h0 : (List.range (s1.length + 1)).map (fun i => levRef (s1.take i) ([] : List Char)) =
      List.range (s1.length + 1) := by
    nth_rewrite 2 [← List.map_id (List.range (s1.length + 1))]
    apply List.map_congr_left
    intro i hi
    simp only [id_eq]
    rw [levRef_nil_right, List.length_take]
    rw [List.mem_range] at hi
    omega
  have h := dpLevAux_inv s1 s2 []
  simp only [List.length_nil, List.nil_append, h0] at h
  rw [dpLev, h]
  have hconcat : List.range (s1.length + 1) = List.range s1.length ++ [s1.length] :=
    List.range_succ s1.length
  rw [hconcat, List.map_append, List.map_cons, List.map_nil, List.getLastD_concat,
    List.take_length]

lemma levRef_self : ∀ a : List Char, levRef a a = 0
  | [] => by simp [levRef]
  | c :: a => by
    have ih := levRef_self a
    rw [levRef_cons_cons]
    simp only [if_pos rfl, ih]
    simp

lemma levRef_comm (a b : List Char) : levRef a b = levRef b a := by
  induction a generalizing b with
  | nil => rw [levRef_nil_left, levRef_nil_right]
  | cons a as ihs =>
    induction b with
    | nil => rw [levRef_nil_left, levRef_nil_right]
    | cons b bs iht =>
      have ih1 := ihs (b :: bs)
      have ih3 := ihs bs
      rw [levRef_cons_cons, levRef_cons_cons, ih1, iht, ih3]
      have hc : (if a = b then (0:ℕ) else 1) = (if b = a then (0:ℕ) else 1) := by
        by_cases h : a = b
        · simp [h]
        · rw [if_neg h, if_neg fun hba => h hba.symm]
      rw [hc]
      refine le_antisymm ?_ ?_ <;> simp only [le_min_iff, min_le_iff] <;> omega

/-- C5: the edit-distance sub-score computed inside `compareStrings` equals
`1 - d / max(len_a, len_b)`, where `d` is the Levenshtein edit distance of
the two strings under the reference definition (unit-cost insertions,
deletions and substitutions, here Mathlib's `levenshtein` with
`Levenshtein.defaultCost`). -/
theorem levScore_eq_reference (a b : List Char) :
    levScoreQ a b =
      1 - ((levenshtein Levenshtein.defaultCost a b : ℕ) : ℚ) /
        ((max a.length b.length : ℕ) : ℚ) := by
  rw [levScoreQ, dpLev_eq_levRef]
  rfl

/-! ### C4 amended: NFKD versus the claimed NFD description -/

/-- C4 (amended): `stripDiacritics` uses compatibility (NFKD) decomposition,
not canonical decomposition.  On strings whose characters decompose the same
way under both normal forms it agrees with the claimed NFD description, and
strings of undecomposable non-combining characters (e.g. plain ASCII) pass
through unchanged; compatibility characters such as `'²'` do change. -/
theorem stripDiacritics_canonical_agreement (l : List Char) :
    ((∀ c ∈ l, nfkdChar c = nfdChar c) → stripDiacritics l = stripDiacriticsNFD l) ∧
    ((∀ c ∈ l, nfkdChar c = [c] ∧ isCombining c = false) → stripDiacritics l = l) := by
  constructor
  · induction l with
    | nil => intro _; rfl
    | cons c t ih =>
      intro h
      have e1 : stripDiacritics (c :: t) =
          (nfkdChar c).filter (fun x => !isCombining x) ++ stripDiacritics t := by
        simp [stripDiacritics, List.flatMap_cons, List.filter_append]
      have e2 : stripDiacriticsNFD (c :: t) =
          (nfdChar c).filter (fun x => !isCombining x) ++ stripDiacriticsNFD t := by
        simp [stripDiacriticsNFD, List.flatMap_cons, List.filter_append]
      rw [e1, e2, h c (List.mem_cons_self c t),
        ih fun x hx => h x (List.mem_cons_of_mem c hx)]
  · induction l with
    | nil => intro _; rfl
    | cons c t ih =>
      intro h
      have e1 : stripDiacritics (c :: t) =
          (nfkdChar c).filter (fun x => !isCombining x) ++ stripDiacritics t := by
        simp [stripDiacritics, List.flatMap_cons, List.filter_append]
      rw [e1, (h c (List.mem_cons_self c t)).1,
        ih fun x hx => h x (List.mem_cons_of_mem c hx)]
      simp [(h c (List.mem_cons_self c t)).2]

/-- Witness for C4: `"café"` has only canonically-decomposing characters, and
the code agrees there with the NFD description. -/
theorem stripDiacritics_canonical_agreement_witness :
    stripDiacritics "café".toList = stripDiacriticsNFD "café".toList :=
  (stripDiacritics_canonical_agreement "café".toList).1 (by decide)

/-! ### Symmetry of the comparison (C8) -/

lemma jaccardQ_comm (a b : List Char) : jaccardQ a b = jaccardQ b a := by
  simp only [jaccardQ]
  rw [Finset.inter_comm, Finset.union_comm]

lemma lcsCell_comm (s1 s2 : List Char) : ∀ i j, lcsCell s1 s2 i j = lcsCell s2 s1 j i := by
  intro i
  induction i with
  | zero => intro j; cases j <;> simp [lcsCell, eq_comm]
  | succ i ih =>
    intro j
    cases j with
    | zero => simp [lcsCell, eq_comm]
    | succ j => simp [lcsCell, eq_comm, ih j]

lemma le_foldr_max {l : List ℕ} {x : ℕ} (h : x ∈ l) : x ≤ l.foldr max 0 := by
  induction l with
  | nil => cases h
  | cons a t ih =>
    simp only [List.foldr_cons]
    rcases List.mem_cons.mp h with rfl | h'
    · exact le_max_left _ _
    · exact le_trans (ih h') (le_max_right _ _)

lemma foldr_max_le {l : List ℕ} {m : ℕ} (h : ∀ x ∈ l, x ≤ m) : l.foldr max 0 ≤ m := by
  induction l with
  | nil => simp
  | cons a t ih =>
    simp only [List.foldr_cons]
    exact max_le (h a (by simp)) (ih fun x hx => h x (by simp [hx]))

lemma mem_lcsGrid {s1 s2 : List Char} {x : ℕ} :
    x ∈ lcsGrid s1 s2 ↔ ∃ i < s1.length, ∃ j < s2.length, x = lcsCell s1 s2 i j := by
  simp [lcsGrid, List.mem_flatMap, List.mem_map, List.mem_range, eq_comm]

lemma lcsLongest_comm (s1 s2 : List Char) : lcsLongest s1 s2 = lcsLongest s2 s1 := by
  apply le_antisymm <;>
  · apply foldr_max_le
    intro x hx
    rcases mem_lcsGrid.mp hx with ⟨i, hi, j, hj, rfl⟩
    rw [lcsCell_comm]
    exact le_foldr_max (mem_lcsGrid.mpr ⟨j, hj, i, hi, rfl⟩)

lemma lcsScoreQ_comm (s1 s2 : List Char) : lcsScoreQ s1 s2 = lcsScoreQ s2 s1 := by
  simp only [lcsScoreQ, lcsLongest_comm s1 s2, Nat.max_comm s1.length s2.length]

lemma levScoreQ_comm (a b : List Char) : levScoreQ a b = levScoreQ b a := by
  simp only [levScoreQ, dpLev_eq_levRef, levRef_comm a b, Nat.max_comm a.length b.length]

lemma compareStringsO_comm (a b : Option (List Char)) :
    compareStringsO a b = compareStringsO b a := by
  match a, b with
  | none, none => rfl
  | none, some lb => rfl
  | some la, none => rfl
  | some la, some lb =>
    by_cases h1 : la.isEmpty <;> by_cases h2 : lb.isEmpty <;>
      simp only [compareStringsO, h1, h2, Bool.or_true, Bool.true_or, Bool.or_false,
        Bool.false_or, if_true, if_false]
    rw [Nat.max_comm (normalizeStr la).length (normalizeStr lb).length,
      levScoreQ_comm, jaccardQ_comm, lcsScoreQ_comm]

lemma structuralBonusQ_comm (a b : List Char) :
    structuralBonusQ a b = structuralBonusQ b a := by
  simp only [structuralBonusQ]
  by_cases h1 : (spaceTokens a).isEmpty <;> by_cases h2 : (spaceTokens b).isEmpty <;>
    simp only [h1, h2, Bool.or_true, Bool.true_or, Bool.or_false, Bool.false_or,
      if_true, if_false]
  refine congrArg₂ (fun x y : ℚ => x + y) ?_ ?_ <;>
    refine if_congr ?_ rfl rfl <;>
    simp only [Bool.and_eq_true, Bool.not_eq_true', beq_iff_eq] <;>
    constructor <;> rintro ⟨⟨x, y⟩, z⟩ <;> exact ⟨⟨y, x⟩, z.symm⟩

lemma compareNamesO_fold (a b : Option (List Char)) :
    compareNamesO a b =
      match compareStringsO (some (sanitizeName a)) (some (sanitizeName b)) with
      | some base =>
        some (maxQ 0 (minQ 1 (base + structuralBonusQ (sanitizeName a) (sanitizeName b))))
      | none => none := by
  simp only [compareNamesO, List.foldl]
  cases compareStringsO (some (sanitizeName a)) (some (sanitizeName b)) <;> rfl

/-- C8: `compareNames` is symmetric, because each of its sub-scores — the
blended string similarity of the sanitized names and the structural bonus —
is symmetric in its two arguments. -/
theorem compareNames_symmetric :
    (∀ a b : Option (List Char), compareNamesO a b = compareNamesO b a) ∧
    (∀ a b : Option (List Char), compareStringsO a b = compareStringsO b a) ∧
    (∀ a b : List Char, structuralBonusQ a b = structuralBonusQ b a) := by
  refine ⟨?_, compareStringsO_comm, structuralBonusQ_comm⟩
  intro a b
  rw [compareNamesO_fold, compareNamesO_fold, compareStringsO_comm,
    structuralBonusQ_comm]

/-! ### C3 amended: self-comparison -/

lemma lcsCell_le (s1 s2 : List Char) : ∀ i j, lcsCell s1 s2 i j ≤ min i j + 1
  | 0, j => by simp only [lcsCell]; split <;> omega
  | i + 1, 0 => by simp only [lcsCell]; split <;> omega
  | i + 1, j + 1 => by
    have ih := lcsCell_le s1 s2 i j
    simp only [lcsCell]
    split <;> omega

lemma lcsCell_diag (s : List Char) : ∀ i, lcsCell s s i i = i + 1
  | 0 => by simp [lcsCell]
  | i + 1 => by simp [lcsCell, lcsCell_diag s i]

lemma lcsLongest_self (s : List Char) (hs : s ≠ []) : lcsLongest s s = s.length := by
  have hn : 0 < s.length := List.length_pos.mpr hs
  apply le_antisymm
  · apply foldr_max_le
    intro x hx
    rcases mem_lcsGrid.mp hx with ⟨i, hi, j, hj, rfl⟩
    calc lcsCell s s i j ≤ min i j + 1 := lcsCell_le s s i j
    _ ≤ s.length := by omega
  · have hmem : lcsCell s s (s.length - 1) (s.length - 1) ∈ lcsGrid s s :=
      mem_lcsGrid.mpr ⟨s.length - 1, by omega, s.length - 1, by omega, rfl⟩
    have h := le_foldr_max hmem
    rw [lcsCell_diag] at h
    have : s.length - 1 + 1 = s.length := by omega
    rw [this] at h
    exact h

lemma levScoreQ_self (a : List Char) : levScoreQ a a = 1 := by
  rw [levScoreQ, dpLev_eq_levRef, levRef_self]
  simp

lemma jaccardQ_self (a : List Char) (h : tokenizeW a ≠ []) : jaccardQ a a = 1 := by
  simp only [jaccardQ, Finset.inter_self, Finset.union_self]
  have hcard : (tokenizeW a).toFinset.card ≠ 0 := by
    simp only [ne_eq, Finset.card_eq_zero, List.toFinset_eq_empty_iff]
    exact h
  rw [if_neg hcard, div_self]
  exact_mod_cast hcard

lemma lcsScoreQ_self (a : List Char) (ha : a ≠ []) : lcsScoreQ a a = 1 := by
  have hn : a.length ≠ 0 := fun h => ha (List.length_eq_zero.mp h)
  rw [lcsScoreQ, if_neg (by simp [hn]), lcsLongest_self a ha, Nat.max_self, div_self]
  exact_mod_cast hn

/-- C3 (amended): for any string `x` that is non-empty after normalization
and whose normalized form contains at least one word character
(`[A-Za-z0-9_]`, i.e. its token list is non-empty), `compareStrings(x, x)`
equals exactly `1`.  (Without a word character the Jaccard term is `0` and
the self-similarity is `0.7`.) -/
theorem compareStrings_self_eq_one (la : List Char)
    (h : tokenizeW (normalizeStr la) ≠ []) :
    compareStringsO (some la) (some la) = some 1 := by
  have hla : la ≠ [] := by
    intro he
    subst he
    exact h (by decide)
  have ha1 : normalizeStr la ≠ [] := by
    intro he
    rw [he] at h
    exact h (by decide)
  have hlen : ¬ max (normalizeStr la).length (normalizeStr la).length = 0 := by
    simpa [Nat.max_self, List.length_eq_zero] using ha1
  rw [compareStringsO_some_eq la la (by simpa [List.isEmpty_iff] using hla)
    (by simpa [List.isEmpty_iff] using hla) hlen]
  rw [levScoreQ_self, jaccardQ_self _ h, lcsScoreQ_self _ ha1]
  norm_num [minQ, maxQ]

/-- Witness for C3: `"ab"` tokenizes non-trivially and compares to itself
with score `1`. -/
theorem compareStrings_self_eq_one_witness :
    tokenizeW (normalizeStr "ab".toList) ≠ [] ∧
    compareStringsO (some "ab".toList) (some "ab".toList) = some 1 :=
  ⟨by decide, compareStrings_self_eq_one "ab".toList (by decide)⟩

/-! ### C2: the sanitizer invariant — helper lemmas -/

lemma mem_of_mem_dropWhile {α : Type} {p : α → Bool} :
    ∀ {l : List α} {c : α}, c ∈ l.dropWhile p → c ∈ l := by
  intro l
  induction l with
  | nil => intro c hc; cases hc
  | cons a t ih =>
    intro c hc
    rw [List.dropWhile_cons] at hc
    by_cases hp : p a = true
    · rw [if_pos hp] at hc
      exact List.mem_cons_of_mem a (ih hc)
    · rw [if_neg hp] at hc
      exact hc

lemma mem_of_mem_trimWS {l : List Char} {c : Char} (h : c ∈ trimWS l) : c ∈ l := by
  rw [trimWS, List.mem_reverse] at h
  have h1 := mem_of_mem_dropWhile h
  rw [List.mem_reverse] at h1
  exact mem_of_mem_dropWhile h1

lemma splitOnP_forall {α : Type} (P : α → Bool) :
    ∀ (l : List α), ∀ t ∈ l.splitOnP P, ∀ c ∈ t, c ∈ l ∧ P c = false := by
  intro l
  induction l with
  | nil =>
    intro t ht c hc
    rw [List.splitOnP_nil] at ht
    rw [List.mem_singleton] at ht
    subst ht
    cases hc
  | cons x xs ih =>
    intro t ht c hc
    rw [List.splitOnP_cons] at ht
    by_cases hp : P x = true
    · rw [if_pos hp] at ht
      rcases List.mem_cons.mp ht with rfl | ht'
      · cases hc
      · have h := ih t ht' c hc
        exact ⟨List.mem_cons_of_mem _ h.1, h.2⟩
    · rw [if_neg hp] at ht
      rcases hsplit : xs.splitOnP P with _ | ⟨h0, rest⟩
      · exact absurd hsplit (List.splitOnP_ne_nil P xs)
      rw [hsplit, List.modifyHead_cons] at ht
      rcases List.mem_cons.mp ht with rfl | ht'
      · rcases List.mem_cons.mp hc with rfl | hc'
        · exact ⟨List.mem_cons_self _ _, by simpa using hp⟩
        · have h := ih h0 (by rw [hsplit]; exact List.mem_cons_self _ _) c hc'
          exact ⟨List.mem_cons_of_mem _ h.1, h.2⟩
      · have h := ih t (by rw [hsplit]; exact List.mem_cons_of_mem _ ht') c hc
        exact ⟨List.mem_cons_of_mem _ h.1, h.2⟩

lemma spaceTokens_forall (l : List Char) :
    ∀ t ∈ spaceTokens l, t ≠ [] ∧ ∀ c ∈ t, c ∈ l ∧ c ≠ ' ' := by
  intro t ht
  have ht' := List.mem_filter.mp ht
  refine ⟨by simpa [List.isEmpty_iff] using ht'.2, ?_⟩
  intro c hc
  have h := splitOnP_forall _ l t ht'.1 c hc
  refine ⟨h.1, ?_⟩
  simpa using h.2

lemma collapseWS_ws : ∀ (l : List Char), ∀ c ∈ collapseWS l, isWS c = true → c = ' '
  | [] => by simp [collapseWS]
  | [c0] => by
    intro c hc hws
    simp only [collapseWS] at hc
    by_cases h0 : isWS c0 = true
    · rw [if_pos h0, List.mem_singleton] at hc
      exact hc
    · rw [if_neg h0, List.mem_singleton] at hc
      subst hc
      exact absurd hws h0
  | c1 :: c2 :: cs => by
    intro c hc hws
    simp only [collapseWS] at hc
    by_cases h12 : (isWS c1 && isWS c2) = true
    · rw [if_pos h12] at hc
      exact collapseWS_ws (c2 :: cs) c hc hws
    · rw [if_neg h12] at hc
      rcases List.mem_cons.mp hc with rfl | hc'
      · by_cases h1 : isWS c1 = true
        · rw [if_pos h1]
        · rw [if_neg h1] at hws ⊢
          exact absurd hws h1
      · exact collapseWS_ws (c2 :: cs) c hc' hws

lemma takeWhile_eq_nil_of_forall {α : Type} {p : α → Bool} :
    ∀ {l : List α}, (∀ c ∈ l, p c = false) → l.takeWhile p = []
  | [], _ => rfl
  | a :: t, h => by
    rw [List.takeWhile_cons, if_neg]
    simp [h a (List.mem_cons_self a t)]

lemma dropWhile_eq_self_of_takeWhile_nil {α : Type} {p : α → Bool} :
    ∀ {l : List α}, l.takeWhile p = [] → l.dropWhile p = l
  | [], _ => rfl
  | a :: t, h => by
    rw [List.takeWhile_cons] at h
    rw [List.dropWhile_cons]
    by_cases hp : p a = true
    · rw [if_pos hp] at h
      cases h
    · rw [if_neg hp]

lemma trimWS_eq_self {l : List Char} (h1 : l.takeWhile isWS = [])
    (h2 : l.reverse.takeWhile isWS = []) : trimWS l = l := by
  rw [trimWS, dropWhile_eq_self_of_takeWhile_nil h1,
    dropWhile_eq_self_of_takeWhile_nil h2, List.reverse_reverse]

lemma collapseWS_eq_self :
    ∀ (l : List Char),
      List.Chain' (fun c d => ¬(isWS c = true ∧ isWS d = true)) l →
      (∀ c ∈ l, isWS c = true → c = ' ') → collapseWS l = l
  | [] => fun _ _ => rfl
  | [c0] => by
    intro _ hsp
    simp only [collapseWS]
    by_cases h0 : isWS c0 = true
    · rw [if_pos h0, hsp c0 (List.mem_singleton_self c0) h0]
    · rw [if_neg h0]
  | c1 :: c2 :: cs => by
    intro hch hsp
    have hch' := List.chain'_cons.mp hch
    simp only [collapseWS]
    rw [if_neg (by simpa [Bool.and_eq_true] using hch'.1)]
    rw [collapseWS_eq_self (c2 :: cs) hch'.2 fun c hc => hsp c (List.mem_cons_of_mem c1 hc)]
    by_cases h1 : isWS c1 = true
    · rw [if_pos h1, hsp c1 (List.mem_cons_self c1 _) h1]
    · rw [if_neg h1]

lemma chain'_nonWS {l : List Char} (h : ∀ c ∈ l, isWS c = false) :
    List.Chain' (fun c d => ¬(isWS c = true ∧ isWS d = true)) l := by
  induction l with
  | nil => exact List.chain'_nil
  | cons a t ih =>
    refine List.chain'_cons'.mpr ⟨?_, ih fun c hc => h c (List.mem_cons_of_mem a hc)⟩
    intro y _ hy
    rw [h a (List.mem_cons_self a t)] at hy
    exact Bool.false_ne_true hy.1

lemma joinSp_ne_nil : ∀ (t : List Char) (ts : List (List Char)),
    t ≠ [] → joinSp (t :: ts) ≠ []
  | t, [], ht => by simpa [joinSp] using ht
  | t, t2 :: ts, ht => by
    simp only [joinSp]
    intro h
    rcases List.append_eq_nil.mp h with ⟨h1, h2⟩
    exact ht h1

lemma joinSp_props :
    ∀ (ts : List (List Char)),
      (∀ t ∈ ts, t ≠ [] ∧ ∀ c ∈ t, isWS c = false) →
      (joinSp ts).takeWhile isWS = [] ∧
      (joinSp ts).reverse.takeWhile isWS = [] ∧
      List.Chain' (fun c d => ¬(isWS c = true ∧ isWS d = true)) (joinSp ts) ∧
      (∀ c ∈ joinSp ts, isWS c = true → c = ' ')
  | [] => by intro _; refine ⟨rfl, rfl, List.chain'_nil, by simp [joinSp]⟩
  | [t] => by
    intro h
    have ht := h t (List.mem_singleton_self t)
    refine ⟨takeWhile_eq_nil_of_forall ht.2, ?_, chain'_nonWS ht.2, ?_⟩
    · exact takeWhile_eq_nil_of_forall fun c hc => ht.2 c (List.mem_reverse.mp hc)
    · intro c hc hws
      exact absurd hws (by simp [ht.2 c hc])
  | t :: t2 :: ts => by
    intro h
    have ht := h t (List.mem_cons_self t _)
    have hrest : ∀ u ∈ t2 :: ts, u ≠ [] ∧ ∀ c ∈ u, isWS c = false :=
      fun u hu => h u (List.mem_cons_of_mem t hu)
    obtain ⟨ih1, ih2, ih3, ih4⟩ := joinSp_props (t2 :: ts) hrest
    have hJne : joinSp (t2 :: ts) ≠ [] :=
      joinSp_ne_nil t2 ts (hrest t2 (List.mem_cons_self t2 ts)).1
    have hjoin : joinSp (t :: t2 :: ts) = t ++ ' ' :: joinSp (t2 :: ts) := rfl
    refine ⟨?_, ?_, ?_, ?_⟩
    · rw [hjoin]
      rcases ht with ⟨htne, htws⟩
      cases t with
      | nil => exact absurd rfl htne
      | cons c0 t' =>
        rw [List.cons_append, List.takeWhile_cons, if_neg]
        simp [htws c0 (List.mem_cons_self c0 t')]
    · rw [hjoin, List.reverse_append, List.reverse_cons]
      have hJr : (joinSp (t2 :: ts)).reverse ≠ [] := by
        simpa using hJne
      cases hJr' : (joinSp (t2 :: ts)).reverse with
      | nil => exact absurd hJr' hJr
      | cons d0 J' =>
        rw [List.append_assoc, List.cons_append, List.takeWhile_cons, if_neg]
        have : d0 ∈ (joinSp (t2 :: ts)).reverse := by rw [hJr']; exact List.mem_cons_self d0 J'
        have hd0 : d0 ∈ (joinSp (t2 :: ts)).reverse.takeWhile isWS ∨ True := Or.inr trivial
        -- head of reverse is non-WS because its takeWhile is []
        have : isWS d0 = false := by
          by_contra hd
          rw [Bool.not_eq_false] at hd
          have := ih2
          rw [hJr', List.takeWhile_cons, if_pos hd] at this
          cases this
        simp [this]
    · rw [hjoin, List.chain'_append]
      refine ⟨chain'_nonWS ht.2, List.chain'_cons'.mpr ⟨?_, ih3⟩, ?_⟩
      · intro y hy hcon
        cases hJ : joinSp (t2 :: ts) with
        | nil => rw [hJ] at hy; cases hy
        | cons z zs =>
          rw [hJ] at hy
          simp only [List.head?_cons, Option.mem_def, Option.some.injEq] at hy
          rw [hJ, List.takeWhile_cons] at ih1
          rw [← hy] at hcon
          by_cases hz : isWS z = true
          · rw [if_pos hz] at ih1; cases ih1
          · exact hz hcon.2
      · intro x hx y hy hcon
        rcases List.mem_getLast?_eq_getLast hx with ⟨hne, hxl⟩
        have hxmem : x ∈ t := hxl ▸ List.getLast_mem hne
        rw [ht.2 x hxmem] at hcon
        exact Bool.false_ne_true hcon.1
    · rw [hjoin]
      intro c hc hws
      rcases List.mem_append.mp hc with hc1 | hc2
      · exact absurd hws (by simp [ht.2 c hc1])
      · rcases List.mem_cons.mp hc2 with rfl | hc3
        · rfl
        · exact ih4 c hc3 hws

lemma isWS_letter {c : Char} (h1 : 97 ≤ c.toNat) (h2 : c.toNat ≤ 122) :
    isWS c = false := by
  simp only [isWS, Bool.or_eq_false_iff, Bool.and_eq_false_iff,
    beq_eq_false_iff_ne, ne_eq, decide_eq_false_iff_not]
  omega

lemma isSingleL_chars {t : List Char} (h : isSingleL t = true) :
    t ≠ [] ∧ ∀ c ∈ t, isWS c = false := by
  match t, h with
  | [c], h => ?_
  constructor
  · simp
  · intro x hx
    rw [List.mem_singleton] at hx
    subst hx
    simp only [isSingleL, Bool.and_eq_true, decide_eq_true_eq] at h
    exact isWS_letter h.1 h.2

lemma csAux_forall :
    ∀ (ts : List (List Char)) (buf : List Char),
      (∀ t ∈ ts, t ≠ [] ∧ ∀ c ∈ t, isWS c = false) →
      (∀ c ∈ buf, isWS c = false) →
      ∀ t ∈ csAux ts buf, t ≠ [] ∧ ∀ c ∈ t, isWS c = false
  | [], buf => by
    intro _ hbuf t ht
    simp only [csAux] at ht
    by_cases hb : buf.isEmpty
    · rw [if_pos hb] at ht
      cases ht
    · rw [if_neg hb, List.mem_singleton] at ht
      subst ht
      exact ⟨by simpa [List.isEmpty_iff] using hb, hbuf⟩
  | t0 :: ts, buf => by
    intro hts hbuf t ht
    have ht0 := hts t0 (List.mem_cons_self t0 ts)
    have hts' : ∀ u ∈ ts, u ≠ [] ∧ ∀ c ∈ u, isWS c = false :=
      fun u hu => hts u (List.mem_cons_of_mem t0 hu)
    simp only [csAux] at ht
    by_cases hs : isSingleL t0 = true
    · rw [if_pos hs] at ht
      refine csAux_forall ts (buf ++ t0) hts' ?_ t ht
      intro c hc
      rcases List.mem_append.mp hc with hc1 | hc2
      · exact hbuf c hc1
      · exact (isSingleL_chars hs).2 c hc2
    · rw [if_neg hs] at ht
      by_cases hb : buf.isEmpty
      · rw [if_pos hb] at ht
        rcases List.mem_cons.mp ht with rfl | ht'
        · exact ht0
        · exact csAux_forall ts [] hts' (by simp) t ht'
      · rw [if_neg hb] at ht
        rcases List.mem_cons.mp ht with rfl | ht'
        · exact ⟨by simpa [List.isEmpty_iff] using hb, hbuf⟩
        · rcases List.mem_cons.mp ht' with rfl | ht''
          · exact ht0
          · exact csAux_forall ts [] hts' (by simp) t ht''

lemma csAux_chain :
    ∀ (ts : List (List Char)) (buf : List Char),
      List.Chain' (fun t u => ¬(isSingleL t = true ∧ isSingleL u = true)) (csAux ts buf)
  | [], buf => by
    simp only [csAux]
    by_cases hb : buf.isEmpty
    · rw [if_pos hb]; exact List.chain'_nil
    · rw [if_neg hb]; exact List.chain'_singleton buf
  | t0 :: ts, buf => by
    simp only [csAux]
    by_cases hs : isSingleL t0 = true
    · rw [if_pos hs]
      exact csAux_chain ts (buf ++ t0)
    · rw [if_neg hs]
      by_cases hb : buf.isEmpty
      · rw [if_pos hb]
        refine List.chain'_cons'.mpr ⟨?_, csAux_chain ts []⟩
        intro y _ hcon
        exact hs hcon.1
      · rw [if_neg hb]
        refine List.chain'_cons'.mpr ⟨?_, List.chain'_cons'.mpr ⟨?_, csAux_chain ts []⟩⟩
        · intro y hy hcon
          simp only [List.head?_cons, Option.mem_def, Option.some.injEq] at hy
          subst hy
          exact hs hcon.2
        · intro y _ hcon
          exact hs hcon.1

lemma spaceTokens_joinSp :
    ∀ (ts : List (List Char)),
      (∀ t ∈ ts, t ≠ [] ∧ ∀ c ∈ t, c ≠ ' ') → spaceTokens (joinSp ts) = ts
  | [] => by intro _; rfl
  | [t] => by
    intro h
    have ht := h t (List.mem_singleton_self t)
    have hsplit : (joinSp [t]).splitOn ' ' = [t] := by
      show t.splitOn ' ' = [t]
      rw [List.splitOn]
      refine List.splitOnP_eq_single _ _ ?_
      intro x hx
      simpa using ht.2 x hx
    have he : (!t.isEmpty) = true := by
      simp [List.isEmpty_iff, ht.1]
    rw [spaceTokens, hsplit, List.filter_cons, if_pos he]
    rfl
  | t :: t2 :: ts => by
    intro h
    have ht := h t (List.mem_cons_self t _)
    have hrest : ∀ u ∈ t2 :: ts, u ≠ [] ∧ ∀ c ∈ u, c ≠ ' ' :=
      fun u hu => h u (List.mem_cons_of_mem t hu)
    have ih := spaceTokens_joinSp (t2 :: ts) hrest
    have hjoin : joinSp (t :: t2 :: ts) = t ++ ' ' :: joinSp (t2 :: ts) := rfl
    have hsplit : (joinSp (t :: t2 :: ts)).splitOn ' ' =
        t :: (joinSp (t2 :: ts)).splitOn ' ' := by
      rw [hjoin, List.splitOn, List.splitOn]
      apply List.splitOnP_first
      · intro x hx
        simpa using ht.2 x hx
      · simp
    have he : (!t.isEmpty) = true := by
      simp [List.isEmpty_iff, ht.1]
    rw [spaceTokens, hsplit, List.filter_cons, if_pos he]
    rw [spaceTokens] at ih
    rw [ih]

lemma head_dropWhile_not {α : Type} (p : α → Bool) :
    ∀ (l : List α) (x : α), (l.dropWhile p).head? = some x → p x = false
  | [], x => by simp [List.dropWhile]
  | a :: t, x => by
    intro hx
    rw [List.dropWhile_cons] at hx
    by_cases hp : p a = true
    · rw [if_pos hp] at hx
      exact head_dropWhile_not p t x hx
    · rw [if_neg hp] at hx
      simp only [List.head?_cons, Option.some.injEq] at hx
      subst hx
      simpa using hp

lemma dropHon_head (ts : List (List Char)) (t : List Char)
    (h : (dropHon ts).head? = some t) : t ∉ HONORIFICS := by
  have h2 := head_dropWhile_not _ ts t h
  simpa using h2

lemma dropSuf_getLast (ts : List (List Char)) (t : List Char)
    (h : (dropSuf ts).getLast? = some t) : stripDots t ∉ SUFFIXES := by
  rw [dropSuf, List.getLast?_reverse] at h
  have h2 := head_dropWhile_not _ ts.reverse t h
  simpa using h2

lemma dropSuf_sub_head (ts : List (List Char)) (t : List Char)
    (h : (dropSuf ts).head? = some t) : ts.head? = some t := by
  rw [dropSuf] at h
  obtain ⟨u, hu⟩ :=
    List.dropWhile_suffix (l := ts.reverse) fun t => SUFFIXES.contains (stripDots t)
  have hts : ts = (ts.reverse.dropWhile fun t => SUFFIXES.contains (stripDots t)).reverse
      ++ u.reverse := by
    have := congrArg List.reverse hu
    rw [List.reverse_append, List.reverse_reverse] at this
    exact this.symm
  rw [hts]
  cases hd : (ts.reverse.dropWhile fun t => SUFFIXES.contains (stripDots t)).reverse with
  | nil => rw [hd] at h; cases h
  | cons z zs =>
    rw [hd] at h
    simp only [List.head?_cons, Option.some.injEq] at h
    subst h
    rfl

lemma strippedTokens_head (l : List Char) (t : List Char)
    (h : (strippedTokens l).head? = some t) : t ∉ HONORIFICS :=
  dropHon_head _ _ (dropSuf_sub_head _ _ h)

lemma sanTokens0_forall (l : List Char) :
    ∀ t ∈ sanTokens0 l, t ≠ [] ∧ ∀ c ∈ t, isWS c = false := by
  intro t ht
  have h := spaceTokens_forall _ t ht
  refine ⟨h.1, ?_⟩
  intro c hc
  have hcw := mem_of_mem_trimWS (h.2 c hc).1
  by_contra hwsf
  rw [Bool.not_eq_false] at hwsf
  exact (h.2 c hc).2 (collapseWS_ws _ c hcw hwsf)

lemma strippedTokens_forall (l : List Char) :
    ∀ t ∈ strippedTokens l, t ≠ [] ∧ ∀ c ∈ t, isWS c = false := by
  intro t ht
  apply sanTokens0_forall l
  have h1 : t ∈ dropHon (sanTokens0 l) := by
    rw [strippedTokens, dropSuf] at ht
    rw [List.mem_reverse] at ht
    have h2 := mem_of_mem_dropWhile ht
    rwa [List.mem_reverse] at h2
  exact mem_of_mem_dropWhile h1

lemma sanTokensOf_forall (s : Option (List Char)) :
    ∀ t ∈ sanTokensOf s, t ≠ [] ∧ ∀ c ∈ t, isWS c = false := by
  match s with
  | none => intro t ht; cases ht
  | some l =>
    by_cases hl : l.isEmpty
    · intro t ht
      simp only [sanTokensOf, if_pos hl] at ht
      cases ht
    · intro t ht
      simp only [sanTokensOf, if_neg hl] at ht
      exact strippedTokens_forall l t ht

lemma collapsedOf_forall (s : Option (List Char)) :
    ∀ t ∈ collapseSingles (sanTokensOf s), t ≠ [] ∧ ∀ c ∈ t, isWS c = false :=
  csAux_forall _ [] (sanTokensOf_forall s) (by simp)

lemma sanitizeName_eq_joinSp_raw (s : Option (List Char)) :
    sanitizeName s = trimWS (collapseWS (joinSp (collapseSingles (sanTokensOf s)))) := by
  match s with
  | none => rfl
  | some l =>
    by_cases hl : l.isEmpty
    · simp only [sanitizeName, sanTokensOf, if_pos hl]
      rfl
    · simp only [sanitizeName, sanTokensOf, if_neg hl]

lemma sanitizeName_eq_joinSp (s : Option (List Char)) :
    sanitizeName s = joinSp (collapseSingles (sanTokensOf s)) := by
  rw [sanitizeName_eq_joinSp_raw]
  obtain ⟨h1, h2, h3, h4⟩ := joinSp_props _ (collapsedOf_forall s)
  rw [collapseWS_eq_self _ h3 h4, trimWS_eq_self h1 h2]

lemma sanitizeName_ws_inv (s : Option (List Char)) :
    (sanitizeName s).takeWhile isWS = [] ∧
    (sanitizeName s).reverse.takeWhile isWS = [] ∧
    List.Chain' (fun c d => ¬(isWS c = true ∧ isWS d = true)) (sanitizeName s) := by
  obtain ⟨h1, h2, h3, _⟩ := joinSp_props _ (collapsedOf_forall s)
  rw [sanitizeName_eq_joinSp]
  exact ⟨h1, h2, h3⟩

lemma spaceTokens_sanitizeName (s : Option (List Char)) :
    spaceTokens (sanitizeName s) = collapseSingles (sanTokensOf s) := by
  rw [sanitizeName_eq_joinSp]
  apply spaceTokens_joinSp
  intro t ht
  have h := collapsedOf_forall s t ht
  refine ⟨h.1, ?_⟩
  intro c hc he
  have := h.2 c hc
  rw [he] at this
  cases this

/-- C2 (amended): every `sanitizeName` output has no leading, trailing, or
double whitespace, and no run of two or more adjacent single-lowercase-letter
tokens; the token list reached right before the single-letter collapsing step
has no leading honorific and no trailing suffix; and the final
whitespace-cleanup of the source is the identity on the joined collapsed
tokens.  (The original claim's guarantee on the *final* token list fails:
collapsing can fuse initials into an honorific- or suffix-shaped token, as
`sanitizeName("m r smith") = "mr smith"` shows.) -/
theorem sanitizeName_canonical_invariant (s : Option (List Char)) :
    ((sanitizeName s).takeWhile isWS = [] ∧
     (sanitizeName s).reverse.takeWhile isWS = [] ∧
     List.Chain' (fun c d => ¬(isWS c = true ∧ isWS d = true)) (sanitizeName s)) ∧
    (∀ t, (sanTokensOf s).head? = some t → t ∉ HONORIFICS) ∧
    (∀ t, (sanTokensOf s).getLast? = some t → stripDots t ∉ SUFFIXES) ∧
    List.Chain' (fun t u => ¬(isSingleL t = true ∧ isSingleL u = true))
      (spaceTokens (sanitizeName s)) ∧
    sanitizeName s = joinSp (collapseSingles (sanTokensOf s)) := by
  refine ⟨sanitizeName_ws_inv s, ?_, ?_, ?_, sanitizeName_eq_joinSp s⟩
  · intro t ht
    rcases s with _ | l
    · cases ht
    · by_cases hl : l.isEmpty
      · rw [show sanTokensOf (some l) = [] by simp [sanTokensOf, hl]] at ht
        cases ht
      · rw [show sanTokensOf (some l) = strippedTokens l by simp [sanTokensOf, hl]] at ht
        exact strippedTokens_head l t ht
  · intro t ht
    rcases s with _ | l
    · cases ht
    · by_cases hl : l.isEmpty
      · rw [show sanTokensOf (some l) = [] by simp [sanTokensOf, hl]] at ht
        cases ht
      · rw [show sanTokensOf (some l) = strippedTokens l by simp [sanTokensOf, hl]] at ht
        exact dropSuf_getLast _ _ ht
  · rw [spaceTokens_sanitizeName]
    exact csAux_chain _ []

/-- Witness for C2 at `"dr john a smith jr"`: the sanitized output keeps the
whitespace invariant, the stripped token list starts with the
non-honorific `"john"`, and the final cleanup is the identity. -/
theorem sanitizeName_canonical_invariant_witness :
    (sanitizeName (some "dr john a smith jr".toList)).takeWhile isWS = [] ∧
    "john".toList ∉ HONORIFICS ∧
    sanitizeName (some "dr john a smith jr".toList) =
      joinSp (collapseSingles (sanTokensOf (some "dr john a smith jr".toList))) :=
  ⟨(sanitizeName_canonical_invariant (some "dr john a smith jr".toList)).1.1,
   (sanitizeName_canonical_invariant (some "dr john a smith jr".toList)).2.1
     "john".toList (by decide),
   (sanitizeName_canonical_invariant (some "dr john a smith jr".toList)).2.2.2.2⟩

/-! ### C6: the variant loop is the direct computation; C10: bonus never hurts -/

lemma toLowerJS_ws (c : Char) : isWS (toLowerJS c) = isWS c := by
  unfold toLowerJS
  split <;> first | decide | rfl

lemma normalizeStr_sanitizeName_ne_nil (s : Option (List Char))
    (h : sanitizeName s ≠ []) : normalizeStr (sanitizeName s) ≠ [] := by
  obtain ⟨h1, h2, _⟩ := sanitizeName_ws_inv s
  have hm1 : ((sanitizeName s).map toLowerJS).takeWhile isWS = [] := by
    cases hout : sanitizeName s with
    | nil => simp
    | cons c0 rest =>
      rw [hout, List.takeWhile_cons] at h1
      rw [List.map_cons, List.takeWhile_cons, toLowerJS_ws]
      by_cases hc : isWS c0 = true
      · rw [if_pos hc] at h1; cases h1
      · rw [if_neg hc]
  have hm2 : ((sanitizeName s).map toLowerJS).reverse.takeWhile isWS = [] := by
    rw [← List.map_reverse]
    cases hout : (sanitizeName s).reverse with
    | nil => simp
    | cons c0 rest =>
      rw [hout, List.takeWhile_cons] at h2
      rw [List.map_cons, List.takeWhile_cons, toLowerJS_ws]
      by_cases hc : isWS c0 = true
      · rw [if_pos hc] at h2; cases h2
      · rw [if_neg hc]
  rw [normalizeStr, trimWS_eq_self hm1 hm2]
  simpa using h

lemma clamp01 (x : ℚ) : 0 ≤ maxQ 0 (minQ 1 x) ∧ maxQ 0 (minQ 1 x) ≤ 1 := by
  unfold minQ maxQ
  split_ifs <;> constructor <;> linarith

lemma maxQ_clamp_eq (x : ℚ) (h : 0 ≤ x) : maxQ 0 (minQ 1 x) = minQ 1 x := by
  unfold maxQ minQ
  split_ifs <;> linarith

lemma structuralBonusQ_nonneg (a b : List Char) : 0 ≤ structuralBonusQ a b := by
  simp only [structuralBonusQ]
  split_ifs <;> norm_num

lemma compareStringsO_sanitized (a b : Option (List Char)) :
    ∃ q : ℚ, compareStringsO (some (sanitizeName a)) (some (sanitizeName b)) = some q ∧
      0 ≤ q ∧ q ≤ 1 := by
  by_cases ha : sanitizeName a = []
  · refine ⟨0, ?_, le_refl 0, by norm_num⟩
    simp [compareStringsO, ha]
  · by_cases hb : sanitizeName b = []
    · refine ⟨0, ?_, le_refl 0, by norm_num⟩
      simp [compareStringsO, hb]
    · have hna := normalizeStr_sanitizeName_ne_nil a ha
      have hnb := normalizeStr_sanitizeName_ne_nil b hb
      refine ⟨maxQ 0 (minQ 1
        (levScoreQ (normalizeStr (sanitizeName a)) (normalizeStr (sanitizeName b)) * (1/2) +
          jaccardQ (normalizeStr (sanitizeName a)) (normalizeStr (sanitizeName b)) * (3/10) +
          lcsScoreQ (normalizeStr (sanitizeName a)) (normalizeStr (sanitizeName b)) * (1/5))),
        ?_, (clamp01 _).1, (clamp01 _).2⟩
      exact compareStringsO_some_eq _ _ (by simpa [List.isEmpty_iff] using ha)
        (by simpa [List.isEmpty_iff] using hb)
        (by simp [Nat.max_eq_zero_iff, List.length_eq_zero, hna, hnb])

lemma joinSp_eq_intercalate : ∀ ts : List (List Char), joinSp ts = [' '].intercalate ts
  | [] => by simp [joinSp, List.intercalate]
  | [t] => by simp [joinSp, List.intercalate]
  | t :: t2 :: ts => by
    rw [show joinSp (t :: t2 :: ts) = t ++ ' ' :: joinSp (t2 :: ts) from rfl,
      joinSp_eq_intercalate (t2 :: ts)]
    simp [List.intercalate, List.intersperse_cons_cons, List.flatten]

/-- C6: `compareNames` equals the direct single-pass computation
`min(1, compareStrings(sanA, sanB) + structuralBonus(sanA, sanB))` (with the
`NaN` case never arising on sanitized inputs), and the unused `joinSingles`
hook of the comparator is an identity transform, so the one-variant loop is
observationally the direct computation. -/
theorem compareNames_direct_equiv :
    (∀ a b : Option (List Char), compareNamesO a b = compareNamesDirect a b) ∧
    (∀ s : List Char, joinSingles s = s) := by
  constructor
  · intro a b
    obtain ⟨q, hq, hq0, hq1⟩ := compareStringsO_sanitized a b
    have hb := structuralBonusQ_nonneg (sanitizeName a) (sanitizeName b)
    have hL : compareNamesO a b = some (maxQ 0 (minQ 1
        (q + structuralBonusQ (sanitizeName a) (sanitizeName b)))) := by
      rw [compareNamesO_fold, hq]
    have hD : compareNamesDirect a b = some (minQ 1
        (q + structuralBonusQ (sanitizeName a) (sanitizeName b))) := by
      simp only [compareNamesDirect]
      rw [hq]
      rfl
    rw [hL, hD, maxQ_clamp_eq _ (by linarith)]
  · intro s
    rw [joinSingles]
    simp only [ite_self]
    have hmap : ((s.splitOn ' ').map fun t => t) = s.splitOn ' ' := by
      simp
    rw [hmap, joinSp_eq_intercalate]
    apply List.intercalate_splitOn

/-- C10: the name score is never below the base string similarity of the two
sanitized names: the structural bonus is non-negative and the base score is
already at most `1`, so adding the bonus and clamping at `1` cannot lower
the score. -/
theorem compareNames_ge_base (a b : Option (List Char)) :
    ∃ q r : ℚ, compareNamesO a b = some q ∧
      compareStringsO (some (sanitizeName a)) (some (sanitizeName b)) = some r ∧
      r ≤ q := by
  obtain ⟨r, hr, hr0, hr1⟩ := compareStringsO_sanitized a b
  refine ⟨maxQ 0 (minQ 1 (r + structuralBonusQ (sanitizeName a) (sanitizeName b))),
    r, ?_, hr, ?_⟩
  · rw [compareNamesO_fold, hr]
  · have hb := structuralBonusQ_nonneg (sanitizeName a) (sanitizeName b)
    unfold maxQ minQ
    split_ifs <;> linarith

end StringWizard
